import Mathlib

/-!
Shallow embedding of the persona tag subsystem (`EthereumTagValidator` in
`studio_app/ethereum_tags.py`) of the repository, together with proofs of the
specification claims about it.

Modelling conventions:
* Python strings are Lean `String`s; `str.upper()` / `str.lower()` are modelled
  by mapping `Char.toUpper` / `Char.toLower` over the characters (identical to
  Python on the ASCII inputs the taxonomy uses).
* The Python `set` held in `valid_tags` is modelled by a duplicate-free list in
  first-insertion order.  Python guarantees that iterating a set yields each
  element exactly once, but it does NOT guarantee any particular order (string
  hashing is even randomized per process); therefore every place where the code
  iterates or lists the set is parametrised by an enumeration `enum` that is
  only assumed to be a permutation of the stored elements.
* `json.load` plus the file read are modelled by a `LoadSource`: either
  `unreadable` (the read or the parse raised, before any state mutation) or
  `content j` with `j` the parsed JSON value.
* Exceptions are modelled explicitly: `load_persona` returns its Python boolean
  result together with the post-call state (the code mutates state before the
  point where a non-mapping input raises); the guarded division in
  `validate_lyrics` is modelled by an `Option`-valued variant.
-/

/-- Decidable test that the first character list is a prefix of the second. -/
def listIsPre : List Char → List Char → Bool
  | [], _ => true
  | _ :: _, [] => false
  | a :: as, b :: bs => a == b && listIsPre as bs

/-- Decidable substring-occurrence test on character lists: `hasSub n h` holds
when `n` occurs contiguously inside `h` (Python's `n in h`). -/
def hasSub (n : List Char) : List Char → Bool
  | [] => listIsPre n []
  | c :: t => listIsPre n (c :: t) || hasSub n t

/-- Python's `needle in hay` on strings. -/
def strContains (hay needle : String) : Bool :=
  hasSub needle.data hay.data

/-- Python's `s.upper()` (ASCII-faithful). -/
def upStr (s : String) : String :=
  String.mk (s.data.map Char.toUpper)

/-- Python's `s.lower()` (ASCII-faithful). -/
def lowStr (s : String) : String :=
  String.mk (s.data.map Char.toLower)

/-- The bracketed uppercased form of a tag: Python's `f"[{tag.upper()}]"`. -/
def wrapTag (t : String) : String :=
  "[" ++ upStr t ++ "]"

/-- Add one element to a duplicate-free list, keeping first-insertion order
(the effect of `set.add` on the modelled set). -/
def addTag (l : List String) (t : String) : List String :=
  if t ∈ l then l else l ++ [t]

/-- Collapse a list to its distinct elements in first-occurrence order (the
contents of `set(xs)`). -/
def dedupKeep (l : List String) : List String :=
  l.foldl addTag []

/-- JSON values, as produced by `json.load`. -/
inductive JValue where
  | obj : List (String × JValue) → JValue
  | arr : List JValue → JValue
  | str : String → JValue
  | num : Int → JValue
  | bool : Bool → JValue
  | null : JValue

/-- Whether a JSON value is a mapping (a Python `dict`). -/
def JValue.isObj : JValue → Bool
  | .obj _ => true
  | _ => false

/-- The mutable state of the validator: its `persona_data` mapping and the
derived `valid_tags` set (modelled as a duplicate-free list in insertion
order). -/
structure EthereumTagValidator where
  persona_data : JValue
  valid_tags : List String

/-- The state of a freshly constructed validator (`persona_data = {}`,
`valid_tags = set()`). -/
def initValidator : EthereumTagValidator :=
  { persona_data := JValue.obj [], valid_tags := [] }

/-- What the file read plus `json.load(f)` produced: `unreadable` when reading
or parsing raised (before any state mutation), `content j` when parsing
succeeded with value `j`. -/
inductive LoadSource where
  | unreadable : LoadSource
  | content : JValue → LoadSource

/-- Python's `"tags" in key.lower()`. -/
def tagsKey (k : String) : Bool :=
  hasSub "tags".data (lowStr k).data

/-- Add the wrapped forms of the elements of a JSON list to the accumulated
tag set, one element at a time, exactly as `set.update` consumes the generator
`f"[{tag.upper()}]" for tag in value`: a non-string element raises
`AttributeError` mid-iteration, leaving the elements already produced in the
set.  Returns the accumulated set and whether the iteration completed. -/
def addTagsJ : List String → List JValue → List String × Bool
  | acc, [] => (acc, true)
  | acc, JValue.str t :: rest => addTagsJ (addTag acc (wrapTag t)) rest
  | acc, _ :: _ => (acc, false)

/-- The entry loop of `load_persona`: for each `(key, value)` of the mapping in
order, add every element of a list value whose key contains `"tags"`
(lowercased), else add the value of a string-valued `"name"` key.  Returns the
accumulated tag set and whether the loop completed without raising. -/
def procEntries : List String → List (String × JValue) → List String × Bool
  | acc, [] => (acc, true)
  | acc, (k, v) :: rest =>
    match v with
    | JValue.arr l =>
      if tagsKey k then
        match addTagsJ acc l with
        | (acc2, true) => procEntries acc2 rest
        | (acc2, false) => (acc2, false)
      else procEntries acc rest
    | JValue.str s =>
      if k == "name" then procEntries (addTag acc (wrapTag s)) rest
      else procEntries acc rest
    | _ => procEntries acc rest

/-- `EthereumTagValidator.load_persona`.  Returns the Python boolean result and
the state after the call.  On an unreadable source the exception fires before
any assignment, so the state is untouched; once parsing succeeded the code
first overwrites `persona_data` and resets `valid_tags` to the empty set, so a
later failure (non-mapping input, or a non-string tag element) still leaves the
state overwritten. -/
def load_persona (st : EthereumTagValidator) (src : LoadSource) :
    Bool × EthereumTagValidator :=
  match src with
  | .unreadable => (false, st)
  | .content j =>
    match j with
    | JValue.obj kvs =>
      match procEntries [] kvs with
      | (tags, ok) => (ok, { persona_data := j, valid_tags := tags })
    | _ => (false, { persona_data := j, valid_tags := [] })

/-- The scanner of `re.findall(r'\[[^\[\]]+\]', lyrics)`: the state is `none`
outside a candidate match and `some acc` when the characters `acc` (none of
them a bracket) have been read since the most recent unmatched `[`.  Emits the
matched tokens left to right, non-overlapping, exactly as `re.findall` does. -/
def scanAux : Option (List Char) → List Char → List String
  | _, [] => []
  | none, c :: rest =>
    if c = '[' then scanAux (some []) rest else scanAux none rest
  | some acc, c :: rest =>
    if c = ']' then
      if acc = [] then scanAux none rest
      else String.mk ('[' :: (acc ++ [']'])) :: scanAux none rest
    else if c = '[' then scanAux (some []) rest
    else scanAux (some (acc ++ [c])) rest

/-- All bracketed tag tokens of a document, in match order with duplicates. -/
def findTags (s : String) : List String :=
  scanAux none s.data

/-- Python's `set(re.findall(...))`: the distinct found tags. -/
def foundSet (s : String) : List String :=
  dedupKeep (findTags s)

/-- Python's `{tag.upper() for tag in found_tags}`. -/
def foundNorm (s : String) : List String :=
  dedupKeep ((foundSet s).map upStr)

/-- Python's `{tag.upper() for tag in self.valid_tags}`. -/
def validNorm (st : EthereumTagValidator) : List String :=
  dedupKeep (st.valid_tags.map upStr)

/-- The dictionary returned by `validate_lyrics`. -/
structure ValidationReport where
  used : List String
  invalid : List String
  missing_core : List String
  total_valid : Nat
  coverage : ℚ

/-- `EthereumTagValidator.validate_lyrics`.  Lists that Python derives from
sets are represented in first-occurrence order; every claim about them is
stated via membership, which is order-independent. -/
def validate_lyrics (st : EthereumTagValidator) (lyrics : String) :
    ValidationReport :=
  let found := foundSet lyrics
  let foundN := foundNorm lyrics
  let validN := validNorm st
  { used := found
    invalid := found.filter (fun t => !(decide (upStr t ∈ validN)))
    missing_core := st.valid_tags.filter
      (fun t => hasSub "[ETHEREUM]".data (upStr t).data
        && !(decide (upStr t ∈ foundN)))
    total_valid := st.valid_tags.length
    coverage :=
      if validN = [] then 0
      else ((foundN.filter (fun t => decide (t ∈ validN))).length : ℚ)
            / (validN.length : ℚ) }

/-- Checked rational division: `none` exactly when the divisor is zero (a
Python `ZeroDivisionError`). -/
def qdivChecked (a b : Nat) : Option ℚ :=
  if b = 0 then none else some ((a : ℚ) / (b : ℚ))

/-- `validate_lyrics` with the single fallible primitive — the division in the
coverage computation — made explicit: it is guarded by the
`if valid_normalized else 0` conditional, so the function can in fact never
fail. -/
def validate_lyrics_opt (st : EthereumTagValidator) (lyrics : String) :
    Option ValidationReport :=
  let found := foundSet lyrics
  let foundN := foundNorm lyrics
  let validN := validNorm st
  let cov :=
    if validN = [] then some (0 : ℚ)
    else qdivChecked (foundN.filter (fun t => decide (t ∈ validN))).length
          validN.length
  cov.map (fun c =>
    { used := found
      invalid := found.filter (fun t => !(decide (upStr t ∈ validN)))
      missing_core := st.valid_tags.filter
        (fun t => hasSub "[ETHEREUM]".data (upStr t).data
          && !(decide (upStr t ∈ foundN)))
      total_valid := st.valid_tags.length
      coverage := c })

/-- Python's `list(self.valid_tags)[:inject_count]`, applied to an enumeration
`enum` of the set (any permutation of the stored elements). -/
def priority_tags (enum : List String) (inject_count : Nat) : List String :=
  enum.take inject_count

/-- One iteration of the embedding loop of `auto_embed_tags`: append the tag on
its own line unless it already occurs case-insensitively. -/
def embedStep (ly : String) (tag : String) : String :=
  if strContains (upStr ly) (upStr tag) then ly else ly ++ "\n" ++ tag

/-- The embedding loop of `auto_embed_tags` over a list of tags. -/
def embedAll (ly : String) (tags : List String) : String :=
  tags.foldl embedStep ly

/-- `EthereumTagValidator.auto_embed_tags`, parametrised by the enumeration
`enum` in which `list(self.valid_tags)` yields the set's elements (claims about
a validator state `st` assume `enum` is a permutation of `st.valid_tags`). -/
def auto_embed_tags (enum : List String) (lyrics : String)
    (inject_count : Nat) : String :=
  if enum = [] then lyrics
  else
    embedAll
      (if strContains (upStr lyrics) "[ETHEREUM]" then lyrics
       else "[ETHEREUM]\n" ++ lyrics)
      (priority_tags enum inject_count)

/-- Whether a JSON value is a string (Python's `isinstance(value, str)`). -/
def isStrJ : JValue → Bool
  | .str _ => true
  | _ => false

/-- The wrapped tags contributed by the string elements of a JSON list, in
list order. -/
def strTagsOf (l : List JValue) : List String :=
  l.filterMap (fun e =>
    match e with
    | JValue.str s => some (wrapTag s)
    | _ => none)

/-- The tags a single `(key, value)` entry of the persona mapping contributes
to the tag set. -/
def entryTags (k : String) (v : JValue) : List String :=
  match v with
  | JValue.arr l => if tagsKey k then strTagsOf l else []
  | JValue.str s => if k == "name" then [wrapTag s] else []
  | _ => []

/-- All tags a persona mapping contributes, in the order the load loop
traverses them (before duplicate collapsing). -/
def specTags (kvs : List (String × JValue)) : List String :=
  (kvs.map (fun kv => entryTags kv.1 kv.2)).flatten

/-- Well-formedness of a persona mapping per the spec's data model: every
tag-bearing list value holds only strings (so the load loop cannot raise). -/
def wfEntries (kvs : List (String × JValue)) : Bool :=
  kvs.all (fun kv =>
    match kv.2 with
    | JValue.arr l => !(tagsKey kv.1) || l.all isStrJ
    | _ => true)

/-! ### Substring lemmas -/

theorem listIsPre_refl (l : List Char) : listIsPre l l = true := by
  induction l with
  | nil => rfl
  | cons a as ih => simp [listIsPre, ih]

theorem listIsPre_append_right {n h : List Char} (t : List Char)
    (hp : listIsPre n h = true) : listIsPre n (h ++ t) = true := by
  induction n generalizing h with
  | nil => rfl
  | cons a as ih =>
    cases h with
    | nil => simp [listIsPre] at hp
    | cons b bs =>
      simp only [listIsPre, Bool.and_eq_true] at hp
      simp [listIsPre, hp.1, ih hp.2]

theorem listIsPre_self_append (n t : List Char) : listIsPre n (n ++ t) = true :=
  listIsPre_append_right t (listIsPre_refl n)

theorem hasSub_of_pre {n h : List Char} (hp : listIsPre n h = true) :
    hasSub n h = true := by
  cases h with
  | nil => simpa [hasSub] using hp
  | cons c t => simp [hasSub, hp]

theorem hasSub_append_right {n h : List Char} (t : List Char)
    (hs : hasSub n h = true) : hasSub n (h ++ t) = true := by
  induction h with
  | nil =>
    simp only [hasSub] at hs
    cases n with
    | nil => exact hasSub_of_pre (listIsPre_refl [])
    | cons a as => simp [listIsPre] at hs
  | cons c cs ih =>
    simp only [hasSub, Bool.or_eq_true] at hs
    rcases hs with hp | hs
    · exact hasSub_of_pre (by simpa using listIsPre_append_right t hp)
    · simp only [List.cons_append, hasSub, Bool.or_eq_true]
      exact Or.inr (ih hs)

theorem hasSub_append_left {n h : List Char} (p : List Char)
    (hs : hasSub n h = true) : hasSub n (p ++ h) = true := by
  induction p with
  | nil => simpa using hs
  | cons c cs ih =>
    simp only [List.cons_append, hasSub, Bool.or_eq_true]
    exact Or.inr ih

theorem hasSub_self (n : List Char) : hasSub n n = true :=
  hasSub_of_pre (listIsPre_refl n)

/-! ### String-level lemmas -/

theorem upStr_data (s : String) : (upStr s).data = s.data.map Char.toUpper := rfl

theorem upStr_append (s t : String) : upStr (s ++ t) = upStr s ++ upStr t := by
  apply String.ext
  simp [upStr_data, String.data_append]

theorem strContains_append_right {a x : String} (b : String)
    (h : strContains a x = true) : strContains (a ++ b) x = true := by
  simpa [strContains, String.data_append] using hasSub_append_right b.data h

theorem strContains_append_left {b x : String} (a : String)
    (h : strContains b x = true) : strContains (a ++ b) x = true := by
  simpa [strContains, String.data_append] using hasSub_append_left a.data h

theorem strContains_self (s : String) : strContains s s = true :=
  hasSub_self s.data

/-! ### Embedding-loop lemmas -/

theorem embedStep_keeps (ly t : String) :
    ∃ post, embedStep ly t = ly ++ post := by
  unfold embedStep
  by_cases h : strContains (upStr ly) (upStr t) = true
  · exact ⟨"", by simp [h]⟩
  · exact ⟨"\n" ++ t, by simp [h, String.append_assoc]⟩

theorem embedAll_keeps (tags : List String) (ly : String) :
    ∃ post, embedAll ly tags = ly ++ post := by
  induction tags generalizing ly with
  | nil => exact ⟨"", by simp [embedAll]⟩
  | cons t ts ih =>
    obtain ⟨p1, hp1⟩ := embedStep_keeps ly t
    obtain ⟨p2, hp2⟩ := ih (embedStep ly t)
    exact ⟨p1 ++ p2, by
      simp only [embedAll, List.foldl_cons] at hp2 ⊢
      rw [hp2, hp1, String.append_assoc]⟩

theorem upContains_append (ly b x : String)
    (h : strContains (upStr ly) x = true) :
    strContains (upStr (ly ++ b)) x = true := by
  rw [upStr_append]
  exact strContains_append_right _ h

theorem embedStep_contains_self (ly t : String) :
    strContains (upStr (embedStep ly t)) (upStr t) = true := by
  unfold embedStep
  cases hc : strContains (upStr ly) (upStr t) with
  | true => simp [hc]
  | false =>
    simp only [hc, Bool.false_eq_true, if_false]
    rw [upStr_append, upStr_append]
    exact strContains_append_left _ (strContains_self _)

theorem embedAll_mono {ly x : String} (tags : List String)
    (h : strContains (upStr ly) x = true) :
    strContains (upStr (embedAll ly tags)) x = true := by
  induction tags generalizing ly with
  | nil => simpa [embedAll] using h
  | cons t ts ih =>
    simp only [embedAll, List.foldl_cons]
    apply ih
    obtain ⟨p, hp⟩ := embedStep_keeps ly t
    rw [hp]
    exact upContains_append ly p x h

theorem embedAll_contains_all {t : String} (tags : List String) :
    ∀ ly, t ∈ tags →
      strContains (upStr (embedAll ly tags)) (upStr t) = true := by
  induction tags with
  | nil => intro ly ht; cases ht
  | cons u us ih =>
    intro ly ht
    simp only [embedAll, List.foldl_cons]
    rcases List.mem_cons.mp ht with rfl | hmem
    · exact embedAll_mono us (embedStep_contains_self ly t)
    · exact ih _ hmem

theorem embedAll_id {tags : List String} {ly : String}
    (h : ∀ t ∈ tags, strContains (upStr ly) (upStr t) = true) :
    embedAll ly tags = ly := by
  induction tags with
  | nil => rfl
  | cons u us ih =>
    have hu : embedStep ly u = ly := by
      unfold embedStep
      simp [h u (List.mem_cons_self u us)]
    simp only [embedAll, List.foldl_cons, hu]
    exact ih (fun t ht => h t (List.mem_cons_of_mem u ht))

/-! ### Set-as-list lemmas -/

theorem mem_addTag {t u : String} {l : List String} :
    t ∈ addTag l u ↔ t ∈ l ∨ t = u := by
  unfold addTag
  by_cases h : u ∈ l
  · simp only [if_pos h]
    constructor
    · exact Or.inl
    · rintro (ht | rfl)
      · exact ht
      · exact h
  · simp [if_neg h]

theorem addTag_nodup {l : List String} (h : l.Nodup) (u : String) :
    (addTag l u).Nodup := by
  unfold addTag
  by_cases hu : u ∈ l
  · simpa [if_pos hu] using h
  · simp [if_neg hu, List.nodup_append, h, hu]

theorem foldl_addTag_mem (l : List String) :
    ∀ acc t, t ∈ l.foldl addTag acc ↔ t ∈ acc ∨ t ∈ l := by
  induction l with
  | nil => simp
  | cons u us ih =>
    intro acc t
    simp only [List.foldl_cons, ih, mem_addTag, List.mem_cons]
    tauto

theorem foldl_addTag_nodup (l : List String) :
    ∀ acc, acc.Nodup → (l.foldl addTag acc).Nodup := by
  induction l with
  | nil => intro acc h; simpa using h
  | cons u us ih => intro acc h; exact ih _ (addTag_nodup h u)

theorem mem_dedupKeep {t : String} {l : List String} :
    t ∈ dedupKeep l ↔ t ∈ l := by
  simp [dedupKeep, foldl_addTag_mem]

theorem dedupKeep_nodup (l : List String) : (dedupKeep l).Nodup :=
  foldl_addTag_nodup l [] List.nodup_nil

/-! ### Load lemmas -/

theorem addTagsJ_eq (l : List JValue) (h : l.all isStrJ = true) :
    ∀ acc, addTagsJ acc l = ((strTagsOf l).foldl addTag acc, true) := by
  induction l with
  | nil => intro acc; simp [addTagsJ, strTagsOf]
  | cons e es ih =>
    intro acc
    cases e with
    | str s =>
      have hes : es.all isStrJ = true := by
        simpa [List.all_cons, isStrJ] using h
      simp [addTagsJ, strTagsOf, List.filterMap_cons, ih hes]
    | obj kvs => simp [List.all_cons, isStrJ] at h
    | arr l2 => simp [List.all_cons, isStrJ] at h
    | num n => simp [List.all_cons, isStrJ] at h
    | bool b => simp [List.all_cons, isStrJ] at h
    | null => simp [List.all_cons, isStrJ] at h

theorem procEntries_eq (kvs : List (String × JValue))
    (h : wfEntries kvs = true) :
    ∀ acc, procEntries acc kvs = ((specTags kvs).foldl addTag acc, true) := by
  induction kvs with
  | nil => intro acc; simp [procEntries, specTags]
  | cons kv rest ih =>
    obtain ⟨k, v⟩ := kv
    have hrest : wfEntries rest = true := by
      simp only [wfEntries, List.all_cons, Bool.and_eq_true] at h
      exact h.2
    have hhead := by
      simp only [wfEntries, List.all_cons, Bool.and_eq_true] at h
      exact h.1
    intro acc
    cases v with
    | arr l =>
      by_cases ht : tagsKey k = true
      · have hstr : l.all isStrJ = true := by
          simp only [ht, Bool.not_true, Bool.false_or] at hhead
          exact hhead
        simp only [procEntries, ht, if_pos, addTagsJ_eq l hstr acc]
        rw [ih hrest]
        simp [specTags, entryTags, ht, List.foldl_append]
      · have ht' : tagsKey k = false := by
          cases hx : tagsKey k
          · rfl
          · exact absurd hx ht
        simp only [procEntries, ht', Bool.false_eq_true, if_false]
        rw [ih hrest]
        simp [specTags, entryTags, ht']
    | str s =>
      by_cases hn : k = "name"
      · have hb : (k == "name") = true := by simpa using hn
        simp only [procEntries, hb, if_pos]
        rw [ih hrest]
        simp [specTags, entryTags, hn, List.foldl_append]
      · have hb : (k == "name") = false := by simpa using hn
        simp only [procEntries, hb, Bool.false_eq_true, if_false]
        rw [ih hrest]
        simp [specTags, entryTags, hn]
    | obj kvs2 =>
      simp only [procEntries]
      rw [ih hrest]
      simp [specTags, entryTags]
    | num n =>
      simp only [procEntries]
      rw [ih hrest]
      simp [specTags, entryTags]
    | bool b =>
      simp only [procEntries]
      rw [ih hrest]
      simp [specTags, entryTags]
    | null =>
      simp only [procEntries]
      rw [ih hrest]
      simp [specTags, entryTags]

theorem mem_strTagsOf {t : String} {l : List JValue} :
    t ∈ strTagsOf l ↔ ∃ s, JValue.str s ∈ l ∧ t = wrapTag s := by
  simp only [strTagsOf, List.mem_filterMap]
  constructor
  · rintro ⟨e, he, hf⟩
    cases e <;> simp only [Option.some.injEq, reduceCtorEq] at hf
    exact ⟨_, he, hf.symm⟩
  · rintro ⟨s, hs, rfl⟩
    exact ⟨JValue.str s, hs, rfl⟩

theorem mem_entryTags {t : String} {k : String} {v : JValue} :
    t ∈ entryTags k v ↔
      ((∃ l, v = JValue.arr l ∧ tagsKey k = true ∧
          ∃ s, JValue.str s ∈ l ∧ t = wrapTag s) ∨
       (∃ s, v = JValue.str s ∧ k = "name" ∧ t = wrapTag s)) := by
  cases v with
  | arr l =>
    by_cases ht : tagsKey k = true
    · simp [entryTags, ht, mem_strTagsOf]
    · simp [entryTags, ht]
  | str s =>
    by_cases hn : k = "name"
    · simp [entryTags, hn]
    · have : (k == "name") = false := by
        simpa using hn
      simp [entryTags, this, hn]
  | obj kvs2 => simp [entryTags]
  | num n => simp [entryTags]
  | bool b => simp [entryTags]
  | null => simp [entryTags]

theorem mem_specTags {t : String} {kvs : List (String × JValue)} :
    t ∈ specTags kvs ↔ ∃ kv ∈ kvs, t ∈ entryTags kv.1 kv.2 := by
  simp only [specTags, List.mem_flatten, List.mem_map]
  constructor
  · rintro ⟨l, ⟨kv, hkv, rfl⟩, htl⟩
    exact ⟨kv, hkv, htl⟩
  · rintro ⟨kv, hkv, htl⟩
    exact ⟨entryTags kv.1 kv.2, ⟨kv, hkv, rfl⟩, htl⟩

/-! ### Scanner lemmas -/

theorem strMk_length (l : List Char) : (String.mk l).length = l.length := rfl

theorem scanAux_shape :
    ∀ (cs : List Char) (o : Option (List Char)) (t : String),
      t ∈ scanAux o cs →
      ∃ content, content ≠ [] ∧ t = String.mk ('[' :: (content ++ [']'])) := by
  intro cs
  induction cs with
  | nil => intro o t ht; simp [scanAux] at ht
  | cons c rest ih =>
    intro o t ht
    match o with
    | none =>
      by_cases hc : c = '['
      · rw [scanAux, if_pos hc] at ht
        exact ih _ _ ht
      · rw [scanAux, if_neg hc] at ht
        exact ih _ _ ht
    | some acc =>
      by_cases hc : c = ']'
      · by_cases ha : acc = []
        · rw [scanAux, if_pos hc, if_pos ha] at ht
          exact ih _ _ ht
        · rw [scanAux, if_pos hc, if_neg ha] at ht
          rcases List.mem_cons.mp ht with rfl | h2
          · exact ⟨acc, ha, rfl⟩
          · exact ih _ _ h2
      · by_cases hb : c = '['
        · rw [scanAux, if_neg hc, if_pos hb] at ht
          exact ih _ _ ht
        · rw [scanAux, if_neg hc, if_neg hb] at ht
          exact ih _ _ ht

theorem findTags_shape {s : String} {t : String} (h : t ∈ findTags s) :
    3 ≤ t.length ∧ t ≠ "[]" := by
  obtain ⟨content, hne, rfl⟩ := scanAux_shape s.data none t h
  have hlen : (String.mk ('[' :: (content ++ [']']))).length
      = content.length + 2 := by
    simp [strMk_length]
  have hpos : 0 < content.length := List.length_pos.mpr hne
  constructor
  · omega
  · intro contra
    have h2 : (String.mk ('[' :: (content ++ [']']))).length
        = ("[]" : String).length := by rw [contra]
    have h3 : ("[]" : String).length = 2 := by decide
    rw [hlen, h3] at h2
    omega

/-! ### Auxiliary string-length lemmas -/

theorem strLen_data (s : String) : s.length = s.data.length := rfl

theorem upStr_length (s : String) : (upStr s).length = s.length := by
  show (s.data.map Char.toUpper).length = s.data.length
  simp

/-! ### Claim C6 -/

/-- C6 (confirmed): for every enumeration of the tag set, every document and
every inject count (in particular every n ≥ 1), `auto_embed_tags` is
idempotent: running it on its own output with the same count changes
nothing. -/
theorem auto_embed_idem (enum : List String) (s : String) (n : Nat) :
    auto_embed_tags enum (auto_embed_tags enum s n) n
      = auto_embed_tags enum s n := by
  by_cases he : enum = []
  · have h1 : auto_embed_tags enum s n = s := by
      unfold auto_embed_tags
      rw [if_pos he]
    rw [h1]
    exact h1
  · have main : ∀ ly1, strContains (upStr ly1) "[ETHEREUM]" = true →
        auto_embed_tags enum (embedAll ly1 (priority_tags enum n)) n
          = embedAll ly1 (priority_tags enum n) := by
      intro ly1 h1
      have hcont : strContains
          (upStr (embedAll ly1 (priority_tags enum n))) "[ETHEREUM]" = true :=
        embedAll_mono (priority_tags enum n) h1
      have hall : ∀ t ∈ priority_tags enum n,
          strContains (upStr (embedAll ly1 (priority_tags enum n)))
            (upStr t) = true :=
        fun t ht => embedAll_contains_all (priority_tags enum n) ly1 ht
      unfold auto_embed_tags
      rw [if_neg he, if_pos hcont]
      exact embedAll_id hall
    by_cases hc : strContains (upStr s) "[ETHEREUM]" = true
    · have hfirst : auto_embed_tags enum s n
          = embedAll s (priority_tags enum n) := by
        unfold auto_embed_tags
        rw [if_neg he, if_pos hc]
      rw [hfirst]
      exact main s hc
    · have hfirst : auto_embed_tags enum s n
          = embedAll ("[ETHEREUM]\n" ++ s) (priority_tags enum n) := by
        unfold auto_embed_tags
        rw [if_neg he, if_neg hc]
      rw [hfirst]
      apply main
      rw [upStr_append]
      have hpre : strContains (upStr "[ETHEREUM]\n") "[ETHEREUM]" = true := by
        decide
      exact strContains_append_right _ hpre

/-! ### Claim C7 -/

/-- C7 (confirmed): for every enumeration of the tag set, every document and
every inject count, the output of `auto_embed_tags` is the input document with
text only prepended before it and appended after it — nothing of the input is
deleted or reordered. -/
theorem auto_embed_preserves_input (enum : List String) (s : String)
    (n : Nat) :
    ∃ pre post, auto_embed_tags enum s n = pre ++ s ++ post := by
  by_cases he : enum = []
  · exact ⟨"", "", by simp [auto_embed_tags, he]⟩
  · unfold auto_embed_tags
    rw [if_neg he]
    by_cases hc : strContains (upStr s) "[ETHEREUM]" = true
    · rw [if_pos hc]
      obtain ⟨post, hp⟩ := embedAll_keeps (priority_tags enum n) s
      exact ⟨"", post, by rw [String.empty_append]; exact hp⟩
    · rw [if_neg hc]
      obtain ⟨post, hp⟩ :=
        embedAll_keeps (priority_tags enum n) ("[ETHEREUM]\n" ++ s)
      exact ⟨"[ETHEREUM]\n", post, hp⟩

/-! ### Claim C9 -/

/-- C9 (confirmed): `validate_lyrics` completes on every state and every input
string (empty or with malformed bracket sequences): its only fallible
primitive, the coverage division, is guarded by the emptiness conditional, so
the checked variant always returns the report; `auto_embed_tags` contains no
fallible primitive at all and is a total function of its inputs. -/
theorem validate_total (st : EthereumTagValidator) (s : String) :
    validate_lyrics_opt st s = some (validate_lyrics st s) := by
  unfold validate_lyrics_opt validate_lyrics
  by_cases hv : validNorm st = []
  · simp [hv, qdivChecked]
  · have hl : (validNorm st).length ≠ 0 := by
      simpa [List.length_eq_zero] using hv
    simp [hv, qdivChecked, hl]

/-! ### Claim C10 -/

/-- C10 (confirmed): the tag-extraction step only reports bracketed tokens
with nonempty content, so every used tag has length at least 3, and the empty
bracket pair never appears among the used tags, the invalid tags, or the
normalized found set that feeds the coverage computation. -/
theorem no_empty_bracket_tags (st : EthereumTagValidator) (s : String) :
    (∀ t ∈ (validate_lyrics st s).used, 3 ≤ t.length) ∧
    "[]" ∉ (validate_lyrics st s).used ∧
    "[]" ∉ (validate_lyrics st s).invalid ∧
    "[]" ∉ foundNorm s := by
  have hused : (validate_lyrics st s).used = foundSet s := rfl
  have hshape : ∀ t ∈ foundSet s, 3 ≤ t.length ∧ t ≠ "[]" := by
    intro t ht
    exact findTags_shape (mem_dedupKeep.mp ht)
  refine ⟨?_, ?_, ?_, ?_⟩
  · intro t ht
    exact (hshape t (hused ▸ ht)).1
  · intro hmem
    exact (hshape _ (hused ▸ hmem)).2 rfl
  · intro hmem
    have hinv : (validate_lyrics st s).invalid
        = (foundSet s).filter
            (fun t => !(decide (upStr t ∈ validNorm st))) := rfl
    rw [hinv] at hmem
    exact (hshape _ (List.mem_of_mem_filter hmem)).2 rfl
  · intro hmem
    have hm2 : ("[]" : String) ∈ (foundSet s).map upStr :=
      mem_dedupKeep.mp hmem
    obtain ⟨u, hu, hui⟩ := List.mem_map.mp hm2
    have hlen := (hshape u hu).1
    have hul : ("[]" : String).length = u.length := by
      rw [← hui, upStr_length]
    have h2 : ("[]" : String).length = 2 := by decide
    omega

/-- C10 witness: the theorem applied to a concrete state and a document whose
text contains both an empty bracket pair and a real tag. -/
theorem no_empty_bracket_tags_witness :
    (∀ t ∈ (validate_lyrics initValidator "ok [] [A] []").used, 3 ≤ t.length) ∧
    "[]" ∉ (validate_lyrics initValidator "ok [] [A] []").used ∧
    "[]" ∉ (validate_lyrics initValidator "ok [] [A] []").invalid ∧
    "[]" ∉ foundNorm "ok [] [A] []" :=
  no_empty_bracket_tags initValidator "ok [] [A] []"

/-! ### Claim C8 -/

/-- C8 (confirmed): coverage equals the cardinality ratio of the intersection
of the uppercase-normalized found set with the uppercase-normalized TagSet
over the normalized TagSet's cardinality, always lies in [0,1], and is 0 when
the TagSet is empty — the division is guarded, never a fault. -/
theorem coverage_bounds (st : EthereumTagValidator) (s : String) :
    0 ≤ (validate_lyrics st s).coverage ∧
    (validate_lyrics st s).coverage ≤ 1 ∧
    (st.valid_tags = [] → (validate_lyrics st s).coverage = 0) ∧
    (validNorm st ≠ [] →
      (validate_lyrics st s).coverage =
        (((foundNorm s).toFinset ∩ (validNorm st).toFinset).card : ℚ)
          / ((validNorm st).toFinset.card : ℚ)) := by
  have hcov : (validate_lyrics st s).coverage =
      (if validNorm st = [] then (0 : ℚ)
       else (((foundNorm s).filter
                (fun t => decide (t ∈ validNorm st))).length : ℚ)
              / ((validNorm st).length : ℚ)) := rfl
  by_cases hv : validNorm st = []
  · rw [hcov, if_pos hv]
    exact ⟨le_refl 0, by norm_num, fun _ => rfl, fun hne => absurd hv hne⟩
  · rw [hcov, if_neg hv]
    have hnd : (foundNorm s).Nodup := dedupKeep_nodup _
    have hvnd : (validNorm st).Nodup := dedupKeep_nodup _
    have hfnd : ((foundNorm s).filter
        (fun t => decide (t ∈ validNorm st))).Nodup := hnd.filter _
    have hsubset : (foundNorm s).filter
        (fun t => decide (t ∈ validNorm st)) ⊆ validNorm st := by
      intro t ht
      have hmf := List.mem_filter.mp ht
      simpa using hmf.2
    have hlen : ((foundNorm s).filter
          (fun t => decide (t ∈ validNorm st))).length
        ≤ (validNorm st).length :=
      (hfnd.subperm hsubset).length_le
    have hdpos : (0 : ℚ) < ((validNorm st).length : ℚ) := by
      have hp : 0 < (validNorm st).length := List.length_pos.mpr hv
      exact_mod_cast hp
    refine ⟨?_, ?_, ?_, ?_⟩
    · exact div_nonneg (Nat.cast_nonneg _) (le_of_lt hdpos)
    · rw [div_le_one hdpos]
      exact_mod_cast hlen
    · intro hempty
      exfalso
      apply hv
      simp [validNorm, hempty, dedupKeep]
    · intro _
      have hnum : ((foundNorm s).filter
            (fun t => decide (t ∈ validNorm st))).length
          = ((foundNorm s).toFinset ∩ (validNorm st).toFinset).card := by
        rw [← List.toFinset_card_of_nodup hfnd]
        congr 1
        rw [List.toFinset_filter]
        ext x
        simp [List.mem_toFinset]
      have hden : (validNorm st).length = (validNorm st).toFinset.card :=
        (List.toFinset_card_of_nodup hvnd).symm
      rw [hnum, hden]

/-- C8 witness: the theorem applied to the default-style persona state and a
document covering one of its three tags. -/
theorem coverage_bounds_witness :
    0 ≤ (validate_lyrics
          { persona_data := JValue.obj [], valid_tags := ["[ETHEREUM]"] }
          "yo [ETHEREUM]").coverage ∧
    (validate_lyrics
          { persona_data := JValue.obj [], valid_tags := ["[ETHEREUM]"] }
          "yo [ETHEREUM]").coverage ≤ 1 ∧
    ((["[ETHEREUM]"] : List String) = [] →
      (validate_lyrics
          { persona_data := JValue.obj [], valid_tags := ["[ETHEREUM]"] }
          "yo [ETHEREUM]").coverage = 0) ∧
    (validNorm { persona_data := JValue.obj [], valid_tags := ["[ETHEREUM]"] }
        ≠ [] →
      (validate_lyrics
          { persona_data := JValue.obj [], valid_tags := ["[ETHEREUM]"] }
          "yo [ETHEREUM]").coverage =
        (((foundNorm "yo [ETHEREUM]").toFinset ∩
            (validNorm { persona_data := JValue.obj [],
                         valid_tags := ["[ETHEREUM]"] }).toFinset).card : ℚ)
          / ((validNorm { persona_data := JValue.obj [],
                          valid_tags := ["[ETHEREUM]"] }).toFinset.card : ℚ)) :=
  coverage_bounds
    { persona_data := JValue.obj [], valid_tags := ["[ETHEREUM]"] }
    "yo [ETHEREUM]"

/-! ### Claim C1 -/

/-- C1 counterexample: for the loaded persona whose name is "BITCOIN", the
TagSet holds the name-derived core tag `[BITCOIN]`, the empty document
contains no tag at all, yet `missing_core` is empty — the code filters on the
hardcoded literal `"[ETHEREUM]"`, not on the persona's own name-derived core
tag, so the claim's predicted `missing_core` (containing `[BITCOIN]`) is
wrong. -/
theorem missing_core_counterexample :
    ("[BITCOIN]" ∈ (load_persona initValidator
        (.content (JValue.obj [("name", JValue.str "BITCOIN")]))).2.valid_tags)
    ∧ findTags "" = []
    ∧ (validate_lyrics
        (load_persona initValidator
          (.content (JValue.obj [("name", JValue.str "BITCOIN")]))).2
        "").missing_core = [] := by
  refine ⟨?_, ?_, ?_⟩ <;> decide

/-- C1 (amended): `missing_core` contains exactly the TagSet members whose
uppercased form contains the literal substring `"[ETHEREUM]"` and whose
uppercased form is absent from the document's extracted, uppercased tags; the
persona's own name-derived tag is not consulted unless it happens to contain
that literal. -/
theorem missing_core_amended (st : EthereumTagValidator) (s : String)
    (t : String) :
    t ∈ (validate_lyrics st s).missing_core ↔
      (t ∈ st.valid_tags ∧
       hasSub "[ETHEREUM]".data (upStr t).data = true ∧
       upStr t ∉ foundNorm s) := by
  have hmc : (validate_lyrics st s).missing_core
      = st.valid_tags.filter
          (fun t => hasSub "[ETHEREUM]".data (upStr t).data
            && !(decide (upStr t ∈ foundNorm s))) := rfl
  rw [hmc, List.mem_filter]
  simp [and_assoc]

/-- C1 amended witness: the amended characterization instantiated at the
ETHEREUM-named state, the empty document and the tag `[ETHEREUM]`. -/
theorem missing_core_amended_witness :
    "[ETHEREUM]" ∈ (validate_lyrics
        { persona_data := JValue.obj [], valid_tags := ["[ETHEREUM]"] }
        "").missing_core ↔
      ("[ETHEREUM]" ∈
          ({ persona_data := JValue.obj [],
             valid_tags := ["[ETHEREUM]"] } : EthereumTagValidator).valid_tags ∧
       hasSub "[ETHEREUM]".data (upStr "[ETHEREUM]").data = true ∧
       upStr "[ETHEREUM]" ∉ foundNorm "") :=
  missing_core_amended
    { persona_data := JValue.obj [], valid_tags := ["[ETHEREUM]"] }
    "" "[ETHEREUM]"

/-! ### Claim C2 -/

/-- C2 counterexample: loading a parseable but non-mapping input (the JSON
array `[]`) into a state whose TagSet is nonempty signals the load error
(returns `false`) yet clears the TagSet — the prior state is NOT left
untouched, so load is not all-or-nothing. -/
theorem load_all_or_nothing_counterexample :
    (load_persona
        { persona_data := JValue.obj [("name", JValue.str "ETHEREUM")],
          valid_tags := ["[ETHEREUM]"] }
        (.content (JValue.arr []))).1 = false
    ∧ (load_persona
        { persona_data := JValue.obj [("name", JValue.str "ETHEREUM")],
          valid_tags := ["[ETHEREUM]"] }
        (.content (JValue.arr []))).2.valid_tags = []
    ∧ (["[ETHEREUM]"] : List String) ≠ [] := by
  refine ⟨rfl, rfl, ?_⟩
  decide

/-- C2 (amended): on an unreadable source the load fails before any mutation
and the state is exactly preserved; but on input that parses to a non-mapping
value the load still signals the error while having already replaced
`persona_data` with the parsed value and cleared the TagSet. -/
theorem load_error_state_amended (st : EthereumTagValidator) :
    load_persona st .unreadable = (false, st) ∧
    ∀ j, JValue.isObj j = false →
      load_persona st (.content j)
        = (false, { persona_data := j, valid_tags := [] }) := by
  constructor
  · rfl
  · intro j hj
    cases j with
    | obj kvs => simp [JValue.isObj] at hj
    | arr l => rfl
    | str s => rfl
    | num n => rfl
    | bool b => rfl
    | null => rfl

/-- C2 amended witness: the amended behaviour at a concrete nonempty state,
for the unreadable source and for the concrete non-mapping input `[]`. -/
theorem load_error_state_amended_witness :
    load_persona
        { persona_data := JValue.obj [], valid_tags := ["[ETHEREUM]"] }
        .unreadable
      = (false, { persona_data := JValue.obj [],
                  valid_tags := ["[ETHEREUM]"] }) ∧
    (JValue.isObj (JValue.arr []) = false ∧
      load_persona
          { persona_data := JValue.obj [], valid_tags := ["[ETHEREUM]"] }
          (.content (JValue.arr []))
        = (false, { persona_data := JValue.arr [], valid_tags := [] })) :=
  ⟨(load_error_state_amended
      { persona_data := JValue.obj [], valid_tags := ["[ETHEREUM]"] }).1,
   rfl,
   (load_error_state_amended
      { persona_data := JValue.obj [], valid_tags := ["[ETHEREUM]"] }).2
     (JValue.arr []) rfl⟩

/-! ### Claim C3 -/

/-- C3 counterexample: the code takes `list(self.valid_tags)[:n]` from a
Python `set`, whose iteration order is unspecified (any permutation of the
stored elements).  For the loaded two-tag persona the insertion order is
`["[A]", "[B]"]`; the enumeration `["[B]", "[A]"]` is an equally legal
permutation of the same set, and running `auto_embed_tags` under it gives a
different output than the insertion-order enumeration — so the injected tags
are not fixed to "the first n in insertion order" as claimed. -/
theorem inject_order_counterexample :
    (load_persona initValidator
        (.content (JValue.obj
          [("core_tags",
            JValue.arr [JValue.str "A", JValue.str "B"])]))).2.valid_tags
      = ["[A]", "[B]"]
    ∧ List.Perm ["[B]", "[A]"]
        (load_persona initValidator
          (.content (JValue.obj
            [("core_tags",
              JValue.arr [JValue.str "A", JValue.str "B"])]))).2.valid_tags
    ∧ auto_embed_tags ["[B]", "[A]"] "x" 1
        ≠ auto_embed_tags ["[A]", "[B]"] "x" 1 := by
  refine ⟨?_, ?_, ?_⟩ <;> decide

/-- C3 (amended): the injected tags are the first n elements of an unspecified
enumeration of the TagSet.  For every enumeration consistent with the set's
contents (a permutation of the stored, duplicate-free elements) the selection
is a duplicate-free list of TagSet members of length min n |TagSet| — but its
identity and order depend on the enumeration, not on insertion order. -/
theorem inject_order_amended (st : EthereumTagValidator) (enum : List String)
    (n : Nat) (hperm : List.Perm enum st.valid_tags)
    (hnd : st.valid_tags.Nodup) :
    (priority_tags enum n).Nodup ∧
    (∀ t ∈ priority_tags enum n, t ∈ st.valid_tags) ∧
    (priority_tags enum n).length = min n st.valid_tags.length := by
  have hed : enum.Nodup := hperm.nodup_iff.mpr hnd
  refine ⟨?_, ?_, ?_⟩
  · exact hed.sublist (List.take_sublist n enum)
  · intro t ht
    exact hperm.mem_iff.mp (List.take_subset n enum ht)
  · rw [priority_tags, List.length_take, hperm.length_eq]

/-- C3 amended witness: the amended statement at the two-tag state with the
reversed enumeration and n = 1. -/
theorem inject_order_amended_witness :
    (List.Perm ["[B]", "[A]"]
        ({ persona_data := JValue.obj [],
           valid_tags := ["[A]", "[B]"] } : EthereumTagValidator).valid_tags ∧
     (["[A]", "[B]"] : List String).Nodup) ∧
    ((priority_tags ["[B]", "[A]"] 1).Nodup ∧
     (∀ t ∈ priority_tags ["[B]", "[A]"] 1,
        t ∈ ({ persona_data := JValue.obj [],
               valid_tags := ["[A]", "[B]"] } :
                 EthereumTagValidator).valid_tags) ∧
     (priority_tags ["[B]", "[A]"] 1).length
        = min 1 ({ persona_data := JValue.obj [],
                   valid_tags := ["[A]", "[B]"] } :
                     EthereumTagValidator).valid_tags.length) :=
  ⟨⟨by decide, by decide⟩,
   inject_order_amended
     { persona_data := JValue.obj [], valid_tags := ["[A]", "[B]"] }
     ["[B]", "[A]"] 1 (by decide) (by decide)⟩

/-! ### Claim C4 -/

/-- C4 counterexample: for the loaded persona whose name is "BITCOIN" (TagSet
nonempty, equal to `["[BITCOIN]"]`), the name-derived core tag `[BITCOIN]` is
absent from the document "hello", yet `auto_embed_tags` prepends the hardcoded
`[ETHEREUM]` line instead — the output does not start with the name-derived
core tag, refuting the claim that the persona's own bracketed uppercased name
is what gets prepended. -/
theorem core_prepend_counterexample :
    (load_persona initValidator
        (.content (JValue.obj [("name", JValue.str "BITCOIN")]))).2.valid_tags
      = ["[BITCOIN]"]
    ∧ List.Perm ["[BITCOIN]"]
        (load_persona initValidator
          (.content (JValue.obj [("name", JValue.str "BITCOIN")]))).2.valid_tags
    ∧ strContains (upStr "hello") (upStr "[BITCOIN]") = false
    ∧ auto_embed_tags ["[BITCOIN]"] "hello" 1
        = "[ETHEREUM]\nhello\n[BITCOIN]"
    ∧ listIsPre ("[BITCOIN]").data ("[ETHEREUM]\nhello\n[BITCOIN]").data
        = false := by
  refine ⟨?_, ?_, ?_, ?_, ?_⟩ <;> decide

/-- C4 (amended): when the TagSet is nonempty, `auto_embed_tags` prepends the
hardcoded literal tag `[ETHEREUM]` (not the persona's name-derived tag) as its
own line at the very start exactly when the substring `"[ETHEREUM]"` does not
occur case-insensitively in the document, and leaves the document's start
untouched (never prepending a second copy) when it does occur. -/
theorem core_prepend_amended (enum : List String) (s : String) (n : Nat)
    (he : enum ≠ []) :
    (strContains (upStr s) "[ETHEREUM]" = true →
      ∃ post, auto_embed_tags enum s n = s ++ post) ∧
    (strContains (upStr s) "[ETHEREUM]" = false →
      ∃ post, auto_embed_tags enum s n = "[ETHEREUM]\n" ++ s ++ post) := by
  constructor
  · intro hc
    have hfirst : auto_embed_tags enum s n
        = embedAll s (priority_tags enum n) := by
      unfold auto_embed_tags
      rw [if_neg he, if_pos hc]
    rw [hfirst]
    exact embedAll_keeps (priority_tags enum n) s
  · intro hc
    have hc2 : ¬ strContains (upStr s) "[ETHEREUM]" = true := by
      simp [hc]
    have hfirst : auto_embed_tags enum s n
        = embedAll ("[ETHEREUM]\n" ++ s) (priority_tags enum n) := by
      unfold auto_embed_tags
      rw [if_neg he, if_neg hc2]
    rw [hfirst]
    exact embedAll_keeps (priority_tags enum n) ("[ETHEREUM]\n" ++ s)

/-- C4 amended witness: the amended behaviour at the one-tag enumeration, the
document "hi" (which lacks the `[ETHEREUM]` substring) and n = 1. -/
theorem core_prepend_amended_witness :
    (["[ETHEREUM]"] : List String) ≠ [] ∧
    ((strContains (upStr "hi") "[ETHEREUM]" = true →
        ∃ post, auto_embed_tags ["[ETHEREUM]"] "hi" 1 = "hi" ++ post) ∧
     (strContains (upStr "hi") "[ETHEREUM]" = false →
        ∃ post, auto_embed_tags ["[ETHEREUM]"] "hi" 1
          = "[ETHEREUM]\n" ++ "hi" ++ post)) :=
  ⟨by decide, core_prepend_amended ["[ETHEREUM]"] "hi" 1 (by decide)⟩

/-! ### Claim C5 -/

/-- C5 (confirmed): for every persona mapping whose tag-bearing list values
hold strings, the load succeeds and the computed TagSet is duplicate-free and
contains exactly the bracketed uppercased elements of every list value whose
lowercased key contains "tags", plus the bracketed uppercased value of a
string-valued "name" key — and nothing else. -/
theorem load_tagset_exact (kvs : List (String × JValue))
    (hwf : wfEntries kvs = true) (st : EthereumTagValidator) :
    (load_persona st (.content (JValue.obj kvs))).1 = true ∧
    (load_persona st (.content (JValue.obj kvs))).2.valid_tags.Nodup ∧
    ∀ t, t ∈ (load_persona st (.content (JValue.obj kvs))).2.valid_tags ↔
      ((∃ k l, (k, JValue.arr l) ∈ kvs ∧ tagsKey k = true ∧
          ∃ s, JValue.str s ∈ l ∧ t = wrapTag s) ∨
       (∃ v, ("name", JValue.str v) ∈ kvs ∧ t = wrapTag v)) := by
  have hpe := procEntries_eq kvs hwf []
  have hload : load_persona st (.content (JValue.obj kvs))
      = (true, { persona_data := JValue.obj kvs,
                 valid_tags := (specTags kvs).foldl addTag [] }) := by
    simp [load_persona, hpe]
  rw [hload]
  refine ⟨rfl, ?_, ?_⟩
  · exact foldl_addTag_nodup (specTags kvs) [] List.nodup_nil
  · intro t
    have hmem : t ∈ (specTags kvs).foldl addTag [] ↔ t ∈ specTags kvs := by
      rw [foldl_addTag_mem]
      simp
    show t ∈ (specTags kvs).foldl addTag [] ↔ _
    rw [hmem, mem_specTags]
    constructor
    · rintro ⟨⟨k, v⟩, hkv, hts⟩
      rcases mem_entryTags.mp hts with
        ⟨l, rfl, htk, sv, hsl, rfl⟩ | ⟨sv, rfl, rfl, rfl⟩
      · exact Or.inl ⟨k, l, hkv, htk, sv, hsl, rfl⟩
      · exact Or.inr ⟨sv, hkv, rfl⟩
    · rintro (⟨k, l, hkl, htk, sv, hsl, rfl⟩ | ⟨v, hv, rfl⟩)
      · exact ⟨(k, JValue.arr l), hkl,
          mem_entryTags.mpr (Or.inl ⟨l, rfl, htk, sv, hsl, rfl⟩)⟩
      · exact ⟨("name", JValue.str v), hv,
          mem_entryTags.mpr (Or.inr ⟨v, rfl, rfl, rfl⟩)⟩

/-- C5 witness: the hypotheses discharged at the spec's concrete persona
(`name` ETHEREUM with two core tags), together with the instantiated success
flag, duplicate-freeness, and the membership characterization at the tag
`[ETHEREUM]`. -/
theorem load_tagset_exact_witness :
    wfEntries
        [("name", JValue.str "ETHEREUM"),
         ("core_tags",
          JValue.arr [JValue.str "BLOCKCHAIN", JValue.str "WEB3"])] = true ∧
    (load_persona initValidator
        (.content (JValue.obj
          [("name", JValue.str "ETHEREUM"),
           ("core_tags",
            JValue.arr [JValue.str "BLOCKCHAIN", JValue.str "WEB3"])]))).1
      = true ∧
    (load_persona initValidator
        (.content (JValue.obj
          [("name", JValue.str "ETHEREUM"),
           ("core_tags",
            JValue.arr [JValue.str "BLOCKCHAIN",
                        JValue.str "WEB3"])]))).2.valid_tags.Nodup ∧
    ("[ETHEREUM]" ∈ (load_persona initValidator
        (.content (JValue.obj
          [("name", JValue.str "ETHEREUM"),
           ("core_tags",
            JValue.arr [JValue.str "BLOCKCHAIN",
                        JValue.str "WEB3"])]))).2.valid_tags ↔
      ((∃ k l, (k, JValue.arr l) ∈
            [("name", JValue.str "ETHEREUM"),
             ("core_tags",
              JValue.arr [JValue.str "BLOCKCHAIN", JValue.str "WEB3"])] ∧
          tagsKey k = true ∧
          ∃ s, JValue.str s ∈ l ∧ "[ETHEREUM]" = wrapTag s) ∨
       (∃ v, ("name", JValue.str v) ∈
            [("name", JValue.str "ETHEREUM"),
             ("core_tags",
              JValue.arr [JValue.str "BLOCKCHAIN", JValue.str "WEB3"])] ∧
          "[ETHEREUM]" = wrapTag v))) :=
  ⟨by decide,
   (load_tagset_exact _ (by decide) initValidator).1,
   (load_tagset_exact _ (by decide) initValidator).2.1,
   (load_tagset_exact _ (by decide) initValidator).2.2 "[ETHEREUM]"⟩
